import Mathlib

/-!
Shallow embedding of the sensor-log analysis pipeline (src/app.py).

Bytes and decoded text are both modelled as lists of naturals (byte values,
respectively Unicode-style codepoints).  Cells of a table keep the decoded
field text; pandas float NaN results are modelled as Option.none.  The CSV
dialect is modelled without quoting, matching the data the pipeline itself
produces and consumes; blank lines are skipped as read_csv does by default.
-/

namespace SensorApp

/-- Newline byte/codepoint, the line terminator of the CSV dialect. -/
def nlCh : ℕ := 10

/-- Comma byte/codepoint, the field separator of the CSV dialect. -/
def commaCh : ℕ := 44

/-- Split a list on a delimiter; always returns at least one (possibly empty)
chunk, mirroring string splitting. -/
def splitOnD (d : ℕ) : List ℕ → List (List ℕ)
  | [] => [[]]
  | c :: rest =>
    match splitOnD d rest with
    | [] => [[c]]
    | f :: fs => if c = d then [] :: f :: fs else (c :: f) :: fs

/-- Join chunks with a delimiter, the inverse of splitOnD on delimiter-free
chunks. -/
def joinD (d : ℕ) : List (List ℕ) → List ℕ
  | [] => []
  | [f] => f
  | f :: fs => f ++ d :: joinD d fs

/-- Structured table: a header of column names and data rows, each row a list
of field texts.  Mirrors the DataFrame produced by pd.read_csv. -/
structure Table where
  header : List (List ℕ)
  rows : List (List (List ℕ))
  deriving DecidableEq

/-- Parse decoded text as CSV, mirroring pd.read_csv: split into lines, skip
blank lines (skip_blank_lines default), first line is the header, a data row
with fewer fields than the header is padded with empty (missing, NaN) fields
on the right, and a data row with more fields than the header is a parse
failure. Returns none when no non-blank line exists (EmptyDataError) or on a
row with excess fields (ParserError); both are caught by the encoding loop
in the source. -/
def parseCSV (t : List ℕ) : Option Table :=
  match (splitOnD nlCh t).filter (fun l => !l.isEmpty) with
  | [] => none
  | h :: rs =>
    let header := splitOnD commaCh h
    let rows := rs.map (fun r => splitOnD commaCh r)
    if rows.all (fun r => r.length ≤ header.length) then
      some ⟨header, rows.map (fun r => r ++ List.replicate (header.length - r.length) [])⟩
    else none

/-- Continuation byte test for UTF-8. -/
def isCont (b : ℕ) : Bool := 128 ≤ b && b ≤ 191

/-- Classify the head of a UTF-8 byte stream (as Python bytes.decode with
strict errors): yields the decoded codepoint and the number of continuation
bytes consumed, or none for an invalid lead, a truncated sequence, an
overlong encoding, a surrogate, or a codepoint beyond U+10FFFF. -/
def utf8Class (b : ℕ) (bs : List ℕ) : Option (ℕ × ℕ) :=
  if b < 128 then some (b, 0)
  else if 194 ≤ b && b ≤ 223 then
    match bs with
    | b2 :: _ => if isCont b2 then some ((b - 192) * 64 + (b2 - 128), 1) else none
    | [] => none
  else if 224 ≤ b && b ≤ 239 then
    match bs with
    | b2 :: b3 :: _ =>
      if isCont b2 && isCont b3 && !(b = 224 && b2 < 160) && !(b = 237 && 160 ≤ b2) then
        some ((b - 224) * 4096 + (b2 - 128) * 64 + (b3 - 128), 2)
      else none
    | _ => none
  else if 240 ≤ b && b ≤ 244 then
    match bs with
    | b2 :: b3 :: b4 :: _ =>
      if isCont b2 && isCont b3 && isCont b4 && !(b = 240 && b2 < 144) &&
          !(b = 244 && 144 ≤ b2) then
        some ((b - 240) * 262144 + (b2 - 128) * 4096 + (b3 - 128) * 64 + (b4 - 128), 3)
      else none
    | _ => none
  else none

/-- Decode a byte list as UTF-8: classify the head, consume it, recurse. -/
def utf8Decode : List ℕ → Option (List ℕ)
  | [] => some []
  | b :: bs =>
    match utf8Class b bs with
    | some (c, k) => (utf8Decode (bs.drop k)).map (fun t => c :: t)
    | none => none
termination_by l => l.length
decreasing_by simp; omega

/-- Trail byte test for CP949 two-byte sequences (structural model of the
codec: uppercase, lowercase or high-bit trail range). -/
def cp949Trail (b : ℕ) : Bool := (65 ≤ b && b ≤ 90) || (97 ≤ b && b ≤ 122) || (129 ≤ b && b ≤ 254)

/-- Decode a byte list as CP949, modelled structurally: ASCII bytes map to
themselves, a lead byte in 129..254 consumes one trail byte and yields a
synthetic codepoint above U+FFFF encoding the byte pair.  The exact Hangul
codepoint table is immaterial to the pipeline; only decode success and the
preservation of ASCII delimiters matter, and both are captured here. -/
def cp949Class (b : ℕ) (bs : List ℕ) : Option (ℕ × ℕ) :=
  if b < 128 then some (b, 0)
  else if 129 ≤ b && b ≤ 254 then
    match bs with
    | b2 :: _ => if cp949Trail b2 then some (65536 + b * 256 + b2, 1) else none
    | [] => none
  else none

/-- Decode a byte list as CP949: classify the head, consume it, recurse. -/
def cp949Decode : List ℕ → Option (List ℕ)
  | [] => some []
  | b :: bs =>
    match cp949Class b bs with
    | some (c, k) => (cp949Decode (bs.drop k)).map (fun t => c :: t)
    | none => none
termination_by l => l.length
decreasing_by simp; omega

/-- Decode a byte list as ISO-8859-1: total, every byte maps to itself. -/
def latin1Decode (bs : List ℕ) : Option (List ℕ) := some bs

/-- Fixed ordered encoding list of the source (encodings_to_try, line 27). -/
def encodingsToTry : List (List ℕ → Option (List ℕ)) :=
  [utf8Decode, cp949Decode, latin1Decode]

/-- One loop iteration of the source: decode with one encoding then parse as
CSV; any failure in either step is caught and reported as none. -/
def decodeParse (dec : List ℕ → Option (List ℕ)) (blob : List ℕ) : Option Table :=
  match dec blob with
  | some t => parseCSV t
  | none => none

/-- Try the decoders in order, returning the first successful parse
(the for-loop over encodings_to_try with its break, lines 29-34). -/
def loadWith : List (List ℕ → Option (List ℕ)) → List ℕ → Option Table
  | [], _ => none
  | d :: ds, blob =>
    match decodeParse d blob with
    | some tbl => some tbl
    | none => loadWith ds blob

/-- Idealized loader: the encoding loop applied to the fixed list, each
attempt reading the full byte blob.  This is what the source's loop would do
if the stream were rewound between attempts; it agrees with the
stream-faithful loadStream below exactly on the first-attempt path (a
successful utf-8 decode and parse), the only regime in which the theorems
below rely on it. -/
def load (blob : List ℕ) : Option Table := loadWith encodingsToTry blob

/-- Stream-faithful encoding loop.  The source hands the same uploaded_file
stream to every pd.read_csv attempt and never rewinds it (there is no
seek(0) between the attempts of lines 29-34): an attempt reads the stream to
its end before its decode or parse failure surfaces, so a failed attempt
leaves nothing behind for the next one.  Each iteration therefore reads the
current stream remainder, and a failure empties it. -/
def loadStreamWith : List (List ℕ → Option (List ℕ)) → List ℕ → Option Table
  | [], _ => none
  | d :: ds, rem =>
    match decodeParse d rem with
    | some tbl => some tbl
    | none => loadStreamWith ds []

/-- Loader with the actual stream behaviour of the source: the first (utf-8)
attempt sees the whole blob, every later attempt sees the already-consumed
stream. -/
def loadStream (blob : List ℕ) : Option Table := loadStreamWith encodingsToTry blob

/-- Digit test on codepoints. -/
def isDigitCh (c : ℕ) : Bool := 48 ≤ c && c ≤ 57

/-- Numeric value of a digit string. -/
def digitsVal (l : List ℕ) : ℕ := l.foldl (fun a c => a * 10 + (c - 48)) 0

/-- Parse an unsigned decimal number (digits with an optional fractional
part), the numeric shapes pandas type inference classifies as numbers. -/
def parseUnsigned (l : List ℕ) : Option ℚ :=
  match splitOnD 46 l with
  | [a] => if a ≠ [] ∧ a.all isDigitCh then some (digitsVal a) else none
  | [a, b] =>
    if (a ≠ [] ∨ b ≠ []) ∧ a.all isDigitCh ∧ b.all isDigitCh then
      some ((digitsVal a : ℚ) + (digitsVal b : ℚ) / (10 ^ b.length))
    else none
  | _ => none

/-- Parse a (possibly negative) decimal number; fields that do not parse are
missing values (pandas NaN). -/
def parseNum (l : List ℕ) : Option ℚ :=
  match l with
  | 45 :: rest => (parseUnsigned rest).map (fun q => -q)
  | _ => parseUnsigned l

/-- Field text of a cell by row and column position. -/
def cellStr (t : Table) (r c : ℕ) : Option (List ℕ) :=
  (t.rows.get? r).bind (fun row => row.get? c)

/-- Numeric value of a cell; none models a pandas NaN (missing or
unparsable). -/
def cellQ (t : Table) (r c : ℕ) : Option ℚ := (cellStr t r c).bind parseNum

/-- Non-missing numeric values of a column in row order (pandas reductions
skip NaN). -/
def colVals (t : Table) (c : ℕ) : List ℚ :=
  t.rows.filterMap (fun row => (row.get? c).bind parseNum)

/-- Column mean over non-missing values (df[numeric_cols].mean(), line 83). -/
def colMean (t : Table) (c : ℕ) : ℚ :=
  (colVals t c).sum / ((colVals t c).length : ℚ)

/-- Sample variance, N-1 denominator, over non-missing values; none models
the NaN that pandas std (ddof=1) yields on fewer than two values. -/
def sampleVar (t : Table) (c : ℕ) : Option ℚ :=
  let vs := colVals t c
  if 2 ≤ vs.length then
    some (((vs.map (fun x => (x - colMean t c) ^ 2)).sum) / ((vs.length - 1 : ℕ) : ℚ))
  else none

/-- Squared z-score of a cell (line 83).  The source computes
abs((x - mean) / std); squaring avoids the square root while preserving every
comparison against the threshold.  The result is none exactly when the source
value is NaN: missing cell, undefined std, or the 0/0 of a zero-variance
column (variance zero forces x = mean there). -/
def zSq (t : Table) (r c : ℕ) : Option ℚ :=
  match cellQ t r c, sampleVar t c with
  | some x, some v => if v = 0 then none else some ((x - colMean t c) ^ 2 / v)
  | _, _ => none

/-- Fixed outlier threshold of the design (3.0 standard deviations). -/
def threshold : ℚ := 3

/-- Does the cell's z-score strictly exceed the threshold (line 84's
z_scores > 3)?  A NaN z-score compares as False, as in numpy. -/
def exceeds (t : Table) (r c : ℕ) : Bool :=
  match zSq t r c with
  | some q => decide (threshold ^ 2 < q)
  | none => false

/-- Outlier mask of a row: OR across the analyzed numeric columns
((z_scores > 3).any(axis=1), line 84). -/
def maskRow (t : Table) (ncols : List ℕ) (r : ℕ) : Bool :=
  ncols.any (fun c => exceeds t r c)

/-- Count of rows whose z-score in one column exceeds the threshold
((z_scores > 3).sum(), line 103). -/
def exceedCount (t : Table) (c : ℕ) : ℕ :=
  (List.range t.rows.length).countP (fun r => exceeds t r c)

/-- Per-column outlier ratio in percent (line 103).  On an empty table the
source divides 0 by 0 in floating point, yielding NaN and no exception;
that NaN is modelled as none. -/
def outlierRatio (t : Table) (c : ℕ) : Option ℚ :=
  if t.rows.length = 0 then none
  else some (((exceedCount t c : ℚ) / (t.rows.length : ℚ)) * 100)

/-- Is a column numeric in the loaded table (select_dtypes(np.number),
line 47)?  Column-wide inference: every cell is empty or parses as a
number. -/
def isNumericCol (t : Table) (c : ℕ) : Bool :=
  t.rows.all (fun row =>
    match row.get? c with
    | some f => f.isEmpty || (parseNum f).isSome
    | none => true)

/-- Positions of the numeric columns, computed once on the loaded table. -/
def numericCols (t : Table) : List ℕ :=
  (List.range t.header.length).filter (fun c => isNumericCol t c)

/-- Codepoints of the literal column name timestamp. -/
def tsName : List ℕ := [116, 105, 109, 101, 115, 116, 97, 109, 112]

/-- Case-sensitive test for a column literally named timestamp (line 54). -/
def hasTimestamp (t : Table) : Bool := t.header.contains tsName

/-- Position of the timestamp column. -/
def tsIdx (t : Table) : ℕ := t.header.indexOf tsName

/-- Parsed instant of a row's timestamp cell under the permissive parser p
(pd.to_datetime with errors=coerce, line 55); none is the NaT of an
unparsable value.  Instants are integers (seconds). -/
def rowTs (p : List ℕ → Option ℤ) (t : Table) (row : List (List ℕ)) : Option ℤ :=
  (row.get? (tsIdx t)).bind p

/-- Sort key of a row after the NaT rows are dropped. -/
def tsKey (p : List ℕ → Option ℤ) (t : Table) (row : List (List ℕ)) : ℤ :=
  (rowTs p t row).getD 0

/-- Time normalizer (lines 53-58): when a timestamp column exists, parse,
drop the rows whose timestamp does not parse, and sort ascending by the
parsed timestamp; otherwise leave the table unchanged. -/
def normalize (p : List ℕ → Option ℤ) (t : Table) : Table :=
  if hasTimestamp t then
    ⟨t.header,
      (t.rows.filter (fun row => (rowTs p t row).isSome)).mergeSort
        (fun r1 r2 => decide (tsKey p t r1 ≤ tsKey p t r2))⟩
  else t

/-- Date portion of an instant (dt.date): floor to whole days. -/
def dateOf (ts : ℤ) : ℤ := Int.fdiv ts 86400

/-- Inclusive date-range filter comparing only the date portion
(lines 62-65). -/
def filterByDate (p : List ℕ → Option ℤ) (sd ed : ℤ) (t : Table) : Table :=
  ⟨t.header,
    t.rows.filter (fun row =>
      match rowTs p t row with
      | some ts => decide (sd ≤ dateOf ts ∧ dateOf ts ≤ ed)
      | none => false)⟩

/-- Default start date: date portion of the minimum timestamp present
(df.timestamp.min().date(), line 62). -/
def minTsDate (p : List ℕ → Option ℤ) (t : Table) : Option ℤ :=
  ((t.rows.filterMap (rowTs p t)).min?).map dateOf

/-- Default end date: date portion of the maximum timestamp present
(line 63). -/
def maxTsDate (p : List ℕ → Option ℤ) (t : Table) : Option ℤ :=
  ((t.rows.filterMap (rowTs p t)).max?).map dateOf

/-- Pairwise-complete value pairs of two columns: the rows where both cells
hold non-missing numbers (pandas corr, line 113). -/
def pairList (t : Table) (c d : ℕ) : List (ℚ × ℚ) :=
  t.rows.filterMap (fun row =>
    match (row.get? c).bind parseNum, (row.get? d).bind parseNum with
    | some x, some y => some (x, y)
    | _, _ => none)

/-- Mean of the first components of a pair list. -/
def fstMean (ps : List (ℚ × ℚ)) : ℚ := ((ps.map Prod.fst).sum) / (ps.length : ℚ)

/-- Mean of the second components of a pair list. -/
def sndMean (ps : List (ℚ × ℚ)) : ℚ := ((ps.map Prod.snd).sum) / (ps.length : ℚ)

/-- Centered sum of squares of the first components. -/
def sxx (ps : List (ℚ × ℚ)) : ℚ := (ps.map (fun q => (q.1 - fstMean ps) ^ 2)).sum

/-- Centered sum of squares of the second components. -/
def syy (ps : List (ℚ × ℚ)) : ℚ := (ps.map (fun q => (q.2 - sndMean ps) ^ 2)).sum

/-- Centered sum of cross products. -/
def sxy (ps : List (ℚ × ℚ)) : ℚ :=
  (ps.map (fun q => (q.1 - fstMean ps) * (q.2 - sndMean ps))).sum

/-- Correlation entry in rational form: the Pearson coefficient of the pair
(c, d) is n / sqrt m for corrRep t c d = some (n, m); none models the NaN
that pandas corr yields when either column is constant (or empty) on the
pairwise-complete rows. -/
def corrRep (t : Table) (c d : ℕ) : Option (ℚ × ℚ) :=
  if sxx (pairList t c d) = 0 ∨ syy (pairList t c d) = 0 then none
  else some (sxy (pairList t c d), sxx (pairList t c d) * syy (pairList t c d))

/-- Rows of a table selected by a positional boolean mask (df[outliers],
line 87/94). -/
def selectRows (t : Table) (m : ℕ → Bool) : Table :=
  ⟨t.header, (t.rows.enum.filter (fun pr => m pr.1)).map Prod.snd⟩

/-- CSV serialization with header row and no index column
(to_csv(index=False), line 94): lines joined by commas, each line terminated
by a newline. -/
def toCsvText (t : Table) : List ℕ :=
  joinD commaCh t.header ++ nlCh :: (t.rows.map (fun r => joinD commaCh r ++ [nlCh])).flatten

/-- Encode codepoints back to UTF-8 bytes (.encode(utf-8), line 94). -/
def utf8Encode : List ℕ → List ℕ
  | [] => []
  | c :: cs =>
    (if c < 128 then [c]
     else if c < 2048 then [192 + c / 64, 128 + c % 64]
     else if c < 65536 then [224 + c / 4096, 128 + c / 64 % 64, 128 + c % 64]
     else [240 + c / 262144, 128 + c / 4096 % 64, 128 + c / 64 % 64, 128 + c % 64])
      ++ utf8Encode cs

/-- Downloadable export artifact: the mask-selected rows serialized to CSV
and UTF-8 encoded (csv_outliers, line 94). -/
def exportCsv (t : Table) (m : ℕ → Bool) : List ℕ :=
  utf8Encode (toCsvText (selectRows t m))

/-- Terminal errors of the pipeline (the st.stop branches). -/
inductive PipeError where
  | decodeError
  | emptyInputError
  | noAnalyzableDataError
  deriving DecidableEq

/-- Result handed to the presentation layer: the analyzed (normalized and
date-filtered) table together with the numeric-column positions computed at
load time.  Statistics, masks, ratios and correlations are functions of
these two fields. -/
structure Analysis where
  table : Table
  ncols : List ℕ
  deriving DecidableEq

/-- Core pipeline (lines 26-65): load with the encoding loop, stop on a
failed load, stop on an empty table, find the numeric columns, stop when
there are none, then, when a timestamp column exists, normalize and apply
the inclusive date filter whose bounds default to the min and max date
present. -/
def pipeline (p : List ℕ → Option ℤ) (sdQ edQ : Option ℤ) (blob : List ℕ) :
    Except PipeError Analysis :=
  match load blob with
  | none => .error .decodeError
  | some t0 =>
    if t0.rows.isEmpty then .error .emptyInputError
    else if (numericCols t0).isEmpty then .error .noAnalyzableDataError
    else if hasTimestamp t0 then
      let t1 := normalize p t0
      let sd := sdQ.getD ((minTsDate p t1).getD 0)
      let ed := edQ.getD ((maxTsDate p t1).getD 0)
      .ok ⟨filterByDate p sd ed t1, numericCols t0⟩
    else .ok ⟨t0, numericCols t0⟩

/-- The pipeline over the stream-faithful loader: identical to pipeline
except that the idealized load is replaced by loadStream, so the decode
error arises exactly when the program's unrewound stream makes every
attempt fail. -/
def pipelineStream (p : List ℕ → Option ℤ) (sdQ edQ : Option ℤ) (blob : List ℕ) :
    Except PipeError Analysis :=
  match loadStream blob with
  | none => .error .decodeError
  | some t0 =>
    if t0.rows.isEmpty then .error .emptyInputError
    else if (numericCols t0).isEmpty then .error .noAnalyzableDataError
    else if hasTimestamp t0 then
      let t1 := normalize p t0
      let sd := sdQ.getD ((minTsDate p t1).getD 0)
      let ed := edQ.getD ((maxTsDate p t1).getD 0)
      .ok ⟨filterByDate p sd ed t1, numericCols t0⟩
    else .ok ⟨t0, numericCols t0⟩

/-- Simple concrete permissive timestamp parser for concrete instances:
accepts YYYY-MM-DD and YYYY-MM-DD HH:MM:SS shapes, mapping the date to a
day index monotone in (year, month, day). -/
def parseTsSimple (l : List ℕ) : Option ℤ :=
  match splitOnD 32 l with
  | [d] =>
    (match splitOnD 45 d with
     | [y, m, dd] =>
       if y ≠ [] ∧ m ≠ [] ∧ dd ≠ [] ∧ y.all isDigitCh ∧ m.all isDigitCh ∧ dd.all isDigitCh then
         some (((digitsVal y * 10000 + digitsVal m * 100 + digitsVal dd : ℕ) : ℤ) * 86400)
       else none
     | _ => none)
  | [d, tm] =>
    (match splitOnD 45 d, splitOnD 58 tm with
     | [y, m, dd], [hh, mi, ss] =>
       if y ≠ [] ∧ m ≠ [] ∧ dd ≠ [] ∧ hh ≠ [] ∧ mi ≠ [] ∧ ss ≠ [] ∧
           y.all isDigitCh ∧ m.all isDigitCh ∧ dd.all isDigitCh ∧
           hh.all isDigitCh ∧ mi.all isDigitCh ∧ ss.all isDigitCh ∧
           digitsVal hh < 24 ∧ digitsVal mi < 60 ∧ digitsVal ss < 60 then
         some (((digitsVal y * 10000 + digitsVal m * 100 + digitsVal dd : ℕ) : ℤ) * 86400 +
           ((digitsVal hh * 3600 + digitsVal mi * 60 + digitsVal ss : ℕ) : ℤ))
       else none
     | _, _ => none)
  | _ => none

/-- Statement of the spec's outlier criterion for one cell, written from the
spec's words: the absolute z-score, deviation over the sample standard
deviation (square root of the N-1 variance), strictly exceeds 3. -/
def specExceeds (t : Table) (r c : ℕ) : Prop :=
  ∃ x v, cellQ t r c = some x ∧ sampleVar t c = some v ∧ 0 < v ∧
    (3 : ℝ) < |((x : ℝ) - ((colMean t c : ℚ) : ℝ))| / Real.sqrt ((v : ℚ) : ℝ)

/-- Zero-variance column in the sense of the spec: all non-missing values
identical. -/
def constCol (t : Table) (c : ℕ) : Prop :=
  ∀ x ∈ colVals t c, ∀ y ∈ colVals t c, x = y

/-- Valid scalar value codepoint (encodable in UTF-8). -/
def validCh (ch : ℕ) : Bool := ch < 1114112 && !(55296 ≤ ch && ch ≤ 57343)

/-- Field fit for unquoted CSV serialization: valid codepoints, no embedded
line or field delimiter.  Every field produced by parseCSV on decoded input
satisfies this. -/
def goodField (f : List ℕ) : Bool :=
  f.all (fun ch => validCh ch && !(ch = nlCh) && !(ch = commaCh))

/-- Table invariant of analyzed tables: rectangular, at least one column,
header line non-blank, all fields serializable. -/
def goodTable (t : Table) : Bool :=
  t.header.all goodField &&
    t.rows.all (fun r => r.all goodField && decide (r.length = t.header.length)) &&
    !t.header.isEmpty && decide (t.header ≠ [[]])

/-- Concrete fixture: a toy permissive parser used to instantiate the
parser-generic theorems on concrete tables. -/
def exParse (l : List ℕ) : Option ℤ :=
  if l = [49] then some 100 else if l = [48] then some 50 else none

/-- Concrete fixture: a table with a timestamp column, one unparsable
timestamp, and out-of-order rows. -/
def exTsTable : Table := ⟨[tsName], [[[49]], [[120]], [[48]]]⟩

/-- Concrete fixture: a one-column table of twelve rows, eleven zeros and a
single one, whose lone one is a z-score outlier. -/
def exOutlierTable : Table :=
  ⟨[[97]],
    [[[49]], [[48]], [[48]], [[48]], [[48]], [[48]], [[48]], [[48]], [[48]], [[48]], [[48]],
      [[48]]]⟩

/-- Concrete fixture: a two-column table with correlated values 1..3 and
2,4,6. -/
def exCorrTable : Table := ⟨[[97], [98]], [[[49], [50]], [[50], [52]], [[51], [54]]]⟩

/-- Concrete fixture: two columns, the first with a lone outlier, the second
constant. -/
def exConstTable : Table :=
  ⟨[[97], [98]],
    [[[49], [53]], [[48], [53]], [[48], [53]], [[48], [53]], [[48], [53]], [[48], [53]],
      [[48], [53]], [[48], [53]], [[48], [53]], [[48], [53]], [[48], [53]], [[48], [53]]]⟩

/-- Concrete fixture: UTF-8 bytes of a CSV whose timestamp column holds raw
numeric values. -/
def exTsBlob : List ℕ :=
  [116, 105, 109, 101, 115, 116, 97, 109, 112, 44, 97, 10, 53, 44, 49, 10]

theorem splitOnD_ne_nil (d : ℕ) (l : List ℕ) : splitOnD d l ≠ [] := by
  cases l with
  | nil => simp [splitOnD]
  | cons c rest =>
    cases h : splitOnD d rest with
    | nil => simp [splitOnD, h]
    | cons f fs =>
      by_cases hc : c = d <;> simp [splitOnD, h, hc]

theorem load_unfold (blob : List ℕ) : load blob =
    match decodeParse utf8Decode blob with
    | some tbl => some tbl
    | none =>
      match decodeParse cp949Decode blob with
      | some tbl => some tbl
      | none =>
        match decodeParse latin1Decode blob with
        | some tbl => some tbl
        | none => none := rfl

unseal utf8Decode cp949Decode in
theorem loadStream_eq_first (blob : List ℕ) :
    loadStream blob = decodeParse utf8Decode blob := by
  unfold loadStream encodingsToTry loadStreamWith
  cases h : decodeParse utf8Decode blob with
  | some tbl => rfl
  | none => decide

unseal utf8Decode cp949Decode in
/-- C3 (code bug): the claim expects every fallback encoding to retry the
full input, but the source hands the same unrewound uploaded_file stream to
each pd.read_csv attempt, so after a failed utf-8 attempt the cp949 and
iso-8859-1 attempts read a consumed stream and the loader equals its first
attempt alone; a blob validly encoded in cp949 (and invalid as utf-8) whose
decoding parses as a well-formed CSV therefore fails to load instead of
loading via the second listed encoding with its dimensions preserved. -/
theorem stream_load_fallbacks_dead :
    (∀ blob, loadStream blob = decodeParse utf8Decode blob) ∧
    loadStream [97, 10, 176, 97, 10] = none ∧
    decodeParse cp949Decode [97, 10, 176, 97, 10] = some ⟨[[97]], [[[110689]]]⟩ :=
  ⟨loadStream_eq_first, by rw [loadStream_eq_first]; decide, by decide⟩

theorem dateOf_le_dateOf {a b : ℤ} (h : a ≤ b) : dateOf a ≤ dateOf b := by
  unfold dateOf
  rw [Int.fdiv_eq_ediv _ (by norm_num), Int.fdiv_eq_ediv _ (by norm_num)]
  exact Int.ediv_le_ediv (by norm_num) h

theorem dateOf_mono : Monotone dateOf := fun _ _ h => dateOf_le_dateOf h

theorem foldl_min_map (f : ℤ → ℤ) (hf : Monotone f) (l : List ℤ) :
    ∀ a, (l.map f).foldl min (f a) = f (l.foldl min a) := by
  induction l with
  | nil => intro a; rfl
  | cons x xs ih =>
    intro a
    simp only [List.map_cons, List.foldl_cons]
    rw [← hf.map_min, ih]

theorem foldl_max_map (f : ℤ → ℤ) (hf : Monotone f) (l : List ℤ) :
    ∀ a, (l.map f).foldl max (f a) = f (l.foldl max a) := by
  induction l with
  | nil => intro a; rfl
  | cons x xs ih =>
    intro a
    simp only [List.map_cons, List.foldl_cons]
    rw [← hf.map_max, ih]

theorem min?_map_mono (f : ℤ → ℤ) (hf : Monotone f) (l : List ℤ) :
    (l.map f).min? = l.min?.map f := by
  cases l with
  | nil => rfl
  | cons x xs =>
    simp only [List.map_cons, List.min?_cons']
    rw [foldl_min_map f hf xs x]
    rfl

theorem max?_map_mono (f : ℤ → ℤ) (hf : Monotone f) (l : List ℤ) :
    (l.map f).max? = l.max?.map f := by
  cases l with
  | nil => rfl
  | cons x xs =>
    simp only [List.map_cons, List.max?_cons']
    rw [foldl_max_map f hf xs x]
    rfl

/-- C5: time normalization applies exactly when a column literally named
timestamp exists (case-sensitive); it keeps the header, retains exactly the
rows whose timestamp parses (a permutation of the filtered row list, so
unparsable rows are dropped silently rather than raised), and sorts the
retained rows ascending by the parsed timestamp. -/
theorem normalize_spec (p : List ℕ → Option ℤ) (t : Table) :
    (hasTimestamp t = true ↔ tsName ∈ t.header) ∧
    (hasTimestamp t = false → normalize p t = t) ∧
    (hasTimestamp t = true →
      (normalize p t).header = t.header ∧
      (normalize p t).rows.Perm (t.rows.filter (fun row => (rowTs p t row).isSome)) ∧
      (∀ row ∈ (normalize p t).rows, (rowTs p t row).isSome = true) ∧
      (normalize p t).rows.Pairwise (fun r1 r2 => tsKey p t r1 ≤ tsKey p t r2)) := by
  refine ⟨?_, ?_, ?_⟩
  · simp [hasTimestamp]
  · intro h
    unfold normalize
    rw [h]
    simp
  · intro h
    unfold normalize
    simp only [h, eq_self_iff_true, if_true]
    refine ⟨trivial, ?_, ?_, ?_⟩
    · exact List.mergeSort_perm _ _
    · intro row hrow
      have hmem := (List.mergeSort_perm
        (t.rows.filter (fun row => (rowTs p t row).isSome)) _).mem_iff.1 hrow
      exact (List.mem_filter.1 hmem).2
    · refine List.Pairwise.imp ?_ (List.sorted_mergeSort ?_ ?_ _)
      · intro a b hab
        exact of_decide_eq_true hab
      · intro a b c h1 h2
        simp only [decide_eq_true_eq] at h1 h2 ⊢
        exact le_trans h1 h2
      · intro a b
        simp only [Bool.or_eq_true, decide_eq_true_eq]
        exact le_total _ _

/-- C6: the date filter keeps the header, retains exactly the rows whose
timestamp parses and whose date portion lies inclusively between the bounds
(an excluding range simply yields no retained rows), and the default bounds
are the minimum and maximum date present in the table. -/
theorem filterByDate_spec (p : List ℕ → Option ℤ) (sd ed : ℤ) (t : Table)
    (row : List (List ℕ)) :
    ((filterByDate p sd ed t).header = t.header) ∧
    (row ∈ (filterByDate p sd ed t).rows ↔ row ∈ t.rows ∧
      ∃ ts, rowTs p t row = some ts ∧ sd ≤ dateOf ts ∧ dateOf ts ≤ ed) ∧
    (minTsDate p t = ((t.rows.filterMap (rowTs p t)).map dateOf).min?) ∧
    (maxTsDate p t = ((t.rows.filterMap (rowTs p t)).map dateOf).max?) := by
  refine ⟨rfl, ?_, ?_, ?_⟩
  · unfold filterByDate
    simp only [List.mem_filter]
    constructor
    · rintro ⟨hmem, hq⟩
      refine ⟨hmem, ?_⟩
      cases hts : rowTs p t row with
      | none => rw [hts] at hq; exact Bool.noConfusion hq
      | some ts =>
        rw [hts] at hq
        simp only [decide_eq_true_eq] at hq
        exact ⟨ts, rfl, hq.1, hq.2⟩
    · rintro ⟨hmem, ts, hts, h1, h2⟩
      refine ⟨hmem, ?_⟩
      rw [hts]
      simp [h1, h2]
  · unfold minTsDate
    rw [min?_map_mono dateOf dateOf_mono]
  · unfold maxTsDate
    rw [max?_map_mono dateOf dateOf_mono]

/-- Witness for C5: normalization of the concrete timestamp table drops the
unparsable row and sorts the remaining rows ascending. -/
theorem normalize_spec_witness :
    (normalize exParse exTsTable).header = exTsTable.header ∧
    (normalize exParse exTsTable).rows.Perm
      (exTsTable.rows.filter (fun row => (rowTs exParse exTsTable row).isSome)) ∧
    (∀ row ∈ (normalize exParse exTsTable).rows,
      (rowTs exParse exTsTable row).isSome = true) ∧
    (normalize exParse exTsTable).rows.Pairwise
      (fun r1 r2 => tsKey exParse exTsTable r1 ≤ tsKey exParse exTsTable r2) :=
  (normalize_spec exParse exTsTable).2.2 (by decide)

/-- Witness for C6: on the concrete timestamp table, a row inside the date
range is retained by the inclusive filter. -/
theorem filterByDate_spec_witness :
    [[48]] ∈ (filterByDate exParse 0 0 exTsTable).rows ↔ [[48]] ∈ exTsTable.rows ∧
      ∃ ts, rowTs exParse exTsTable [[48]] = some ts ∧ 0 ≤ dateOf ts ∧ dateOf ts ≤ 0 :=
  (filterByDate_spec exParse 0 0 exTsTable [[48]]).2.1

theorem sampleVar_nonneg (t : Table) (c : ℕ) (v : ℚ) (h : sampleVar t c = some v) :
    0 ≤ v := by
  unfold sampleVar at h
  replace h : (if 2 ≤ (colVals t c).length then
      some (((colVals t c).map (fun x => (x - colMean t c) ^ 2)).sum /
        (((colVals t c).length - 1 : ℕ) : ℚ)) else none) = some v := h
  split at h
  · have hv := Option.some.inj h
    rw [← hv]
    apply div_nonneg
    · apply List.sum_nonneg
      intro x hx
      simp only [List.mem_map] at hx
      obtain ⟨y, _, rfl⟩ := hx
      exact sq_nonneg _
    · positivity
  · exact Option.noConfusion h

theorem zSq_eq_some_iff (t : Table) (r c : ℕ) (q : ℚ) :
    zSq t r c = some q ↔ ∃ x v, cellQ t r c = some x ∧ sampleVar t c = some v ∧ v ≠ 0 ∧
      q = (x - colMean t c) ^ 2 / v := by
  unfold zSq
  cases hcell : cellQ t r c with
  | none => simp
  | some x =>
    cases hvar : sampleVar t c with
    | none => simp
    | some v =>
      by_cases hv : v = 0
      · simp [hv]
      · simp only [hv, if_false, Option.some.injEq]
        constructor
        · intro hq
          exact ⟨x, v, rfl, rfl, hv, hq.symm⟩
        · rintro ⟨x2, v2, rfl, rfl, _, hq⟩
          exact hq.symm

theorem zscore_gt_iff (xq mq vq : ℚ) (hv : 0 < vq) :
    ((3 : ℚ) ^ 2 < (xq - mq) ^ 2 / vq) ↔
      (3 : ℝ) < |((xq : ℚ) : ℝ) - ((mq : ℚ) : ℝ)| / Real.sqrt ((vq : ℚ) : ℝ) := by
  have hvR : (0 : ℝ) < ((vq : ℚ) : ℝ) := by exact_mod_cast hv
  have hs : 0 < Real.sqrt ((vq : ℚ) : ℝ) := Real.sqrt_pos.2 hvR
  rw [lt_div_iff hs, lt_div_iff hv]
  have hsq : (3 * Real.sqrt ((vq : ℚ) : ℝ)) ^ 2 = 9 * ((vq : ℚ) : ℝ) := by
    rw [mul_pow, Real.sq_sqrt hvR.le]
    norm_num
  constructor
  · intro h
    have hR : (9 : ℝ) * ((vq : ℚ) : ℝ) < (((xq : ℚ) : ℝ) - ((mq : ℚ) : ℝ)) ^ 2 := by
      have : (3 : ℚ) ^ 2 * vq < (xq - mq) ^ 2 := h
      calc (9 : ℝ) * ((vq : ℚ) : ℝ) = (((3 : ℚ) ^ 2 * vq : ℚ) : ℝ) := by push_cast; ring
        _ < (((xq - mq) ^ 2 : ℚ) : ℝ) := by exact_mod_cast this
        _ = (((xq : ℚ) : ℝ) - ((mq : ℚ) : ℝ)) ^ 2 := by push_cast; ring
    apply lt_of_pow_lt_pow_left 2 (abs_nonneg _)
    rw [hsq, sq_abs]
    exact hR
  · intro h
    have h2 : (3 * Real.sqrt ((vq : ℚ) : ℝ)) ^ 2 <
        |((xq : ℚ) : ℝ) - ((mq : ℚ) : ℝ)| ^ 2 :=
      pow_lt_pow_left h (by positivity) two_ne_zero
    rw [hsq, sq_abs] at h2
    have hQ : (9 : ℚ) * vq < (xq - mq) ^ 2 := by
      have : ((9 * vq : ℚ) : ℝ) < (((xq - mq) ^ 2 : ℚ) : ℝ) := by
        push_cast
        push_cast at h2
        linarith
      exact_mod_cast this
    calc (3 : ℚ) ^ 2 * vq = 9 * vq := by norm_num
      _ < (xq - mq) ^ 2 := hQ

theorem exceeds_iff_spec (t : Table) (r c : ℕ) :
    exceeds t r c = true ↔ specExceeds t r c := by
  unfold exceeds
  cases hz : zSq t r c with
  | none =>
    simp only [Bool.false_eq_true, false_iff]
    rintro ⟨x, v, hcell, hvar, hv, _⟩
    have : zSq t r c = some ((x - colMean t c) ^ 2 / v) := by
      rw [zSq_eq_some_iff]
      exact ⟨x, v, hcell, hvar, ne_of_gt hv, rfl⟩
    rw [hz] at this
    exact Option.noConfusion this
  | some q =>
    obtain ⟨x, v, hcell, hvar, hvne, rfl⟩ := (zSq_eq_some_iff t r c q).1 hz
    have hv : 0 < v := lt_of_le_of_ne (sampleVar_nonneg t c v hvar) (Ne.symm hvne)
    simp only [decide_eq_true_eq]
    unfold specExceeds
    constructor
    · intro h
      refine ⟨x, v, hcell, hvar, hv, ?_⟩
      exact (zscore_gt_iff x (colMean t c) v hv).1 h
    · rintro ⟨x2, v2, hx2, hv2, hvpos2, hgt⟩
      rw [hcell] at hx2
      rw [hvar] at hv2
      obtain rfl := Option.some.inj hx2
      obtain rfl := Option.some.inj hv2
      exact (zscore_gt_iff x (colMean t c) v hv).2 hgt

/-- C1: the outlier mask of a row is true exactly when at least one numeric
column's absolute z-score (deviation over the sample standard deviation with
N-1 denominator) strictly exceeds the threshold, whose default value is
3.0. -/
theorem outlier_mask_iff_zscore (t : Table) (r : ℕ) :
    threshold = 3 ∧
    (maskRow t (numericCols t) r = true ↔ ∃ c ∈ numericCols t, specExceeds t r c) := by
  refine ⟨rfl, ?_⟩
  unfold maskRow
  rw [List.any_eq_true]
  constructor
  · rintro ⟨c, hc, hx⟩
    exact ⟨c, hc, (exceeds_iff_spec t r c).1 hx⟩
  · rintro ⟨c, hc, hx⟩
    exact ⟨c, hc, (exceeds_iff_spec t r c).2 hx⟩

unseal Rat.add Rat.mul Rat.inv Rat.sub Rat.ofScientific in
/-- Witness for C1: in the concrete twelve-row table the first row is
flagged, so some column exceeds three sample standard deviations there. -/
theorem outlier_mask_iff_zscore_witness :
    ∃ c ∈ numericCols exOutlierTable, specExceeds exOutlierTable 0 c :=
  (outlier_mask_iff_zscore exOutlierTable 0).2.mp (by decide)

theorem const_colVals_var_zero (t : Table) (c : ℕ) (v : ℚ) (hconst : constCol t c)
    (hvar : sampleVar t c = some v) : v = 0 := by
  unfold sampleVar at hvar
  replace hvar : (if 2 ≤ (colVals t c).length then
      some (((colVals t c).map (fun x => (x - colMean t c) ^ 2)).sum /
        (((colVals t c).length - 1 : ℕ) : ℚ)) else none) = some v := hvar
  split at hvar
  · rename_i hlen
    have hv := Option.some.inj hvar
    cases hvs : colVals t c with
    | nil => rw [hvs] at hlen; simp at hlen
    | cons x0 rest =>
      have hallx : ∀ x ∈ colVals t c, x = x0 := by
        intro x hx
        exact hconst x hx x0 (by rw [hvs]; simp)
      have hsum : (colVals t c).sum = ((colVals t c).length : ℚ) * x0 := by
        rw [List.sum_eq_card_nsmul (colVals t c) x0 hallx]
        simp [nsmul_eq_mul]
      have hmean : colMean t c = x0 := by
        unfold colMean
        rw [hsum]
        have hlen0 : ((colVals t c).length : ℚ) ≠ 0 := by
          have : (colVals t c).length ≠ 0 := by
            rw [hvs]
            simp
          exact_mod_cast this
        field_simp
      have hzero : (((colVals t c).map (fun x => (x - colMean t c) ^ 2)).sum) = 0 := by
        apply List.sum_eq_zero
        intro y hy
        simp only [List.mem_map] at hy
        obtain ⟨z, hz, rfl⟩ := hy
        rw [hmean, hallx z hz]
        ring
      rw [← hv, hzero, zero_div]
  · exact Option.noConfusion hvar

theorem exceeds_true_var_pos (t : Table) (r c : ℕ) (h : exceeds t r c = true) :
    ∃ v, sampleVar t c = some v ∧ 0 < v := by
  unfold exceeds at h
  cases hz : zSq t r c with
  | none => rw [hz] at h; exact Bool.noConfusion h
  | some q =>
    obtain ⟨x, v, hcell, hvar, hvne, rfl⟩ := (zSq_eq_some_iff t r c q).1 hz
    exact ⟨v, hvar, lt_of_le_of_ne (sampleVar_nonneg t c v hvar) (Ne.symm hvne)⟩

/-- C2: a numeric column whose non-missing values are all identical (sample
standard deviation zero) never yields a defined z-score, contributes no true
outlier flag in any row, and a row can only be flagged through some other
column with strictly positive sample variance. -/
theorem zero_variance_no_flags (t : Table) (c : ℕ) (hconst : constCol t c) :
    (∀ r, zSq t r c = none) ∧
    (∀ r, exceeds t r c = false) ∧
    (∀ r, maskRow t (numericCols t) r = true →
      ∃ c2 ∈ numericCols t, c2 ≠ c ∧ exceeds t r c2 = true ∧
        ∃ v2, sampleVar t c2 = some v2 ∧ 0 < v2) := by
  have hz : ∀ r, zSq t r c = none := by
    intro r
    cases hq : zSq t r c with
    | none => rfl
    | some q =>
      obtain ⟨x, v, hcell, hvar, hvne, rfl⟩ := (zSq_eq_some_iff t r c q).1 hq
      exact absurd (const_colVals_var_zero t c v hconst hvar) hvne
  have hx : ∀ r, exceeds t r c = false := by
    intro r
    unfold exceeds
    rw [hz r]
  refine ⟨hz, hx, ?_⟩
  intro r hmask
  unfold maskRow at hmask
  rw [List.any_eq_true] at hmask
  obtain ⟨c2, hc2, hx2⟩ := hmask
  have hne : c2 ≠ c := by
    rintro rfl
    rw [hx r] at hx2
    exact Bool.noConfusion hx2
  obtain ⟨v2, hvar2, hpos2⟩ := exceeds_true_var_pos t r c2 hx2
  exact ⟨c2, hc2, hne, hx2, v2, hvar2, hpos2⟩

unseal Rat.add Rat.mul Rat.inv Rat.sub Rat.ofScientific in
/-- Witness for C2: in the concrete two-column table the constant column
contributes no flags, and the flagged first row is flagged through the other
column. -/
theorem zero_variance_no_flags_witness :
    (∀ r, zSq exConstTable r 1 = none) ∧
    (∀ r, exceeds exConstTable r 1 = false) ∧
    (∀ r, maskRow exConstTable (numericCols exConstTable) r = true →
      ∃ c2 ∈ numericCols exConstTable, c2 ≠ 1 ∧ exceeds exConstTable r c2 = true ∧
        ∃ v2, sampleVar exConstTable c2 = some v2 ∧ 0 < v2) :=
  zero_variance_no_flags exConstTable 1 (by unfold constCol; decide)

/-- C4: the per-column outlier ratio equals the count of rows whose z-score
in that column exceeds the threshold, divided by the row count and scaled to
percent; the counted rows are exactly those satisfying the spec's z-score
criterion; and on a zero-row table the ratio is undefined rather than a
divide-by-zero fault. -/
theorem outlier_ratio_spec (t : Table) (c : ℕ) :
    (t.rows.length ≠ 0 →
      outlierRatio t c = some ((((List.range t.rows.length).countP
        (fun r => exceeds t r c) : ℚ) / (t.rows.length : ℚ)) * 100)) ∧
    (∀ r, exceeds t r c = true ↔ specExceeds t r c) ∧
    (t.rows.length = 0 → outlierRatio t c = none) := by
  refine ⟨?_, ?_, ?_⟩
  · intro hne
    unfold outlierRatio exceedCount
    rw [if_neg hne]
  · intro r
    exact exceeds_iff_spec t r c
  · intro h0
    unfold outlierRatio
    rw [if_pos h0]

unseal Rat.add Rat.mul Rat.inv Rat.sub Rat.ofScientific in
/-- Witness for C4: the concrete twelve-row table has ratio one-twelfth of a
hundred percent in its single column. -/
theorem outlier_ratio_spec_witness :
    outlierRatio exOutlierTable 0 = some ((((List.range exOutlierTable.rows.length).countP
      (fun r => exceeds exOutlierTable r 0) : ℚ) / (exOutlierTable.rows.length : ℚ)) * 100) ∧
    outlierRatio exOutlierTable 0 = some (25 / 3) :=
  ⟨(outlier_ratio_spec exOutlierTable 0).1 (by decide), by decide⟩

theorem list_map_sum_eq_range_sum {α : Type} (f : α → ℚ) (d : α) (l : List α) :
    (l.map f).sum = ∑ i ∈ Finset.range l.length, f (l.getD i d) := by
  induction l with
  | nil => simp
  | cons x xs ih =>
    simp [Finset.sum_range_succ', ih]
    ring

theorem sxy_sq_le (ps : List (ℚ × ℚ)) : (sxy ps) ^ 2 ≤ sxx ps * syy ps := by
  unfold sxy sxx syy
  rw [list_map_sum_eq_range_sum _ ((0 : ℚ), (0 : ℚ)),
    list_map_sum_eq_range_sum _ ((0 : ℚ), (0 : ℚ)),
    list_map_sum_eq_range_sum _ ((0 : ℚ), (0 : ℚ))]
  exact Finset.sum_mul_sq_le_sq_mul_sq _
    (fun i => (ps.getD i ((0 : ℚ), (0 : ℚ))).1 - fstMean ps)
    (fun i => (ps.getD i ((0 : ℚ), (0 : ℚ))).2 - sndMean ps)

theorem sxx_nonneg (ps : List (ℚ × ℚ)) : 0 ≤ sxx ps := by
  unfold sxx
  apply List.sum_nonneg
  intro x hx
  simp only [List.mem_map] at hx
  obtain ⟨y, _, rfl⟩ := hx
  exact sq_nonneg _

theorem syy_nonneg (ps : List (ℚ × ℚ)) : 0 ≤ syy ps := by
  unfold syy
  apply List.sum_nonneg
  intro x hx
  simp only [List.mem_map] at hx
  obtain ⟨y, _, rfl⟩ := hx
  exact sq_nonneg _

theorem centered_sq_sum_zero (l : List ℚ) (hall : ∀ x ∈ l, ∀ y ∈ l, x = y) :
    (l.map (fun x => (x - l.sum / (l.length : ℚ)) ^ 2)).sum = 0 := by
  cases hl : l with
  | nil => rfl
  | cons x0 rest =>
    rw [← hl]
    have hallx : ∀ x ∈ l, x = x0 := fun x hx => hall x hx x0 (by rw [hl]; simp)
    have hsum : l.sum = (l.length : ℚ) * x0 := by
      rw [List.sum_eq_card_nsmul l x0 hallx]
      simp [nsmul_eq_mul]
    have hlen0 : (l.length : ℚ) ≠ 0 := by
      have : l.length ≠ 0 := by rw [hl]; simp
      exact_mod_cast this
    have hmean : l.sum / (l.length : ℚ) = x0 := by
      rw [hsum]
      field_simp
    apply List.sum_eq_zero
    intro y hy
    simp only [List.mem_map] at hy
    obtain ⟨z, hz, rfl⟩ := hy
    rw [hmean, hallx z hz]
    ring

theorem pairList_swap (t : Table) (c d : ℕ) :
    pairList t d c = (pairList t c d).map Prod.swap := by
  unfold pairList
  induction t.rows with
  | nil => rfl
  | cons r rest ih =>
    simp only [List.filterMap_cons]
    cases hA : (r.get? c).bind parseNum with
    | none =>
      cases hB : (r.get? d).bind parseNum with
      | none => simpa using ih
      | some y => simpa using ih
    | some x =>
      cases hB : (r.get? d).bind parseNum with
      | none => simpa using ih
      | some y => simpa using ih

theorem pairList_diag (t : Table) (c : ℕ) :
    pairList t c c = (colVals t c).map (fun x => (x, x)) := by
  unfold pairList colVals
  induction t.rows with
  | nil => rfl
  | cons r rest ih =>
    simp only [List.filterMap_cons]
    cases hA : (r.get? c).bind parseNum with
    | none => simpa using ih
    | some x => simpa using ih

theorem pairList_mem (t : Table) (c d : ℕ) (pr : ℚ × ℚ) (hpr : pr ∈ pairList t c d) :
    pr.1 ∈ colVals t c ∧ pr.2 ∈ colVals t d := by
  unfold pairList at hpr
  rw [List.mem_filterMap] at hpr
  obtain ⟨row, hrow, hmatch⟩ := hpr
  cases hA : (row.get? c).bind parseNum with
  | none => rw [hA] at hmatch; simp at hmatch
  | some x =>
    cases hB : (row.get? d).bind parseNum with
    | none => rw [hA, hB] at hmatch; simp at hmatch
    | some y =>
      rw [hA, hB] at hmatch
      obtain rfl := Option.some.inj hmatch
      constructor
      · unfold colVals
        rw [List.mem_filterMap]
        exact ⟨row, hrow, hA⟩
      · unfold colVals
        rw [List.mem_filterMap]
        exact ⟨row, hrow, hB⟩

theorem fstMean_swap (ps : List (ℚ × ℚ)) : fstMean (ps.map Prod.swap) = sndMean ps := by
  unfold fstMean sndMean
  rw [List.map_map, List.length_map]
  rfl

theorem sndMean_swap (ps : List (ℚ × ℚ)) : sndMean (ps.map Prod.swap) = fstMean ps := by
  unfold fstMean sndMean
  rw [List.map_map, List.length_map]
  rfl

theorem sxx_swap (ps : List (ℚ × ℚ)) : sxx (ps.map Prod.swap) = syy ps := by
  unfold sxx syy
  rw [List.map_map, fstMean_swap]
  rfl

theorem syy_swap (ps : List (ℚ × ℚ)) : syy (ps.map Prod.swap) = sxx ps := by
  unfold sxx syy
  rw [List.map_map, sndMean_swap]
  rfl

theorem sxy_swap (ps : List (ℚ × ℚ)) : sxy (ps.map Prod.swap) = sxy ps := by
  unfold sxy
  rw [List.map_map, fstMean_swap, sndMean_swap]
  have : ∀ q ∈ ps, ((fun q => (q.1 - sndMean ps) * (q.2 - fstMean ps)) ∘ Prod.swap) q =
      (fun q => (q.1 - fstMean ps) * (q.2 - sndMean ps)) q := by
    intro q _
    simp [Function.comp, Prod.swap, mul_comm]
  rw [List.map_congr_left this]

theorem corrRep_symm (t : Table) (c d : ℕ) : corrRep t c d = corrRep t d c := by
  unfold corrRep
  rw [pairList_swap t c d, sxx_swap, syy_swap, sxy_swap]
  by_cases h : sxx (pairList t c d) = 0 ∨ syy (pairList t c d) = 0
  · rw [if_pos h, if_pos (Or.symm h)]
  · rw [if_neg h, if_neg (fun h2 => h (Or.symm h2))]
    rw [mul_comm]

theorem diag_stats (l : List ℚ) :
    fstMean (l.map (fun x => (x, x))) = l.sum / (l.length : ℚ) ∧
    sndMean (l.map (fun x => (x, x))) = l.sum / (l.length : ℚ) ∧
    sxx (l.map (fun x => (x, x))) =
      (l.map (fun x => (x - l.sum / (l.length : ℚ)) ^ 2)).sum ∧
    syy (l.map (fun x => (x, x))) = sxx (l.map (fun x => (x, x))) ∧
    sxy (l.map (fun x => (x, x))) = sxx (l.map (fun x => (x, x))) := by
  have hm1 : fstMean (l.map (fun x => (x, x))) = l.sum / (l.length : ℚ) := by
    unfold fstMean
    rw [List.map_map, List.length_map,
      show (Prod.fst ∘ fun x : ℚ => (x, x)) = id from rfl, List.map_id]
  have hm2 : sndMean (l.map (fun x => (x, x))) = l.sum / (l.length : ℚ) := by
    unfold sndMean
    rw [List.map_map, List.length_map,
      show (Prod.snd ∘ fun x : ℚ => (x, x)) = id from rfl, List.map_id]
  refine ⟨hm1, hm2, ?_, ?_, ?_⟩
  · unfold sxx
    rw [hm1, List.map_map]
    rfl
  · unfold sxx syy
    rw [hm1, hm2, List.map_map, List.map_map]
    rfl
  · unfold sxx sxy
    rw [hm1, hm2, List.map_map, List.map_map]
    apply congrArg List.sum
    apply List.map_congr_left
    intro x _
    simp only [Function.comp]
    ring

theorem const_sxx_zero (t : Table) (c d : ℕ) (hconst : constCol t c) :
    sxx (pairList t c d) = 0 := by
  have hfst : ∀ x ∈ (pairList t c d).map Prod.fst, x ∈ colVals t c := by
    intro x hx
    rw [List.mem_map] at hx
    obtain ⟨pr, hpr, rfl⟩ := hx
    exact (pairList_mem t c d pr hpr).1
  have hall : ∀ x ∈ (pairList t c d).map Prod.fst, ∀ y ∈ (pairList t c d).map Prod.fst,
      x = y := fun x hx y hy => hconst x (hfst x hx) y (hfst y hy)
  have hz := centered_sq_sum_zero ((pairList t c d).map Prod.fst) hall
  unfold sxx fstMean
  rw [show (pairList t c d).length = ((pairList t c d).map Prod.fst).length from
    (List.length_map _ _).symm]
  rw [← hz, List.map_map]
  rfl

/-- C9: the correlation representation is symmetric in its two columns; every
defined entry, read as the real number n over the square root of m, lies in
the closed interval from minus one to one, with n the centered cross sum and
m the product of the centered square sums over the pairwise-complete rows;
the diagonal entry of a column with non-zero variance is exactly one; and a
zero-variance column gives an undefined entry against every column. -/
theorem correlation_spec (t : Table) (c d : ℕ) :
    (corrRep t c d = corrRep t d c) ∧
    (∀ n m, corrRep t c d = some (n, m) →
      0 < m ∧ n = sxy (pairList t c d) ∧ m = sxx (pairList t c d) * syy (pairList t c d) ∧
      ((n : ℚ) : ℝ) / Real.sqrt (((m : ℚ) : ℝ)) ∈ Set.Icc (-1 : ℝ) 1) ∧
    (sxx (pairList t c c) ≠ 0 →
      corrRep t c c = some (sxx (pairList t c c), sxx (pairList t c c) * sxx (pairList t c c)) ∧
      ((sxx (pairList t c c) : ℚ) : ℝ) /
        Real.sqrt (((sxx (pairList t c c) * sxx (pairList t c c) : ℚ) : ℝ)) = 1) ∧
    (constCol t c → ∀ d2, corrRep t c d2 = none ∧ corrRep t d2 c = none) := by
  refine ⟨corrRep_symm t c d, ?_, ?_, ?_⟩
  · intro n m hrep
    unfold corrRep at hrep
    split at hrep
    · exact Option.noConfusion hrep
    · rename_i hguard
      push_neg at hguard
      obtain ⟨hx0, hy0⟩ := hguard
      have hxpos : 0 < sxx (pairList t c d) :=
        lt_of_le_of_ne (sxx_nonneg _) (Ne.symm hx0)
      have hypos : 0 < syy (pairList t c d) :=
        lt_of_le_of_ne (syy_nonneg _) (Ne.symm hy0)
      obtain ⟨hn, hm⟩ := Prod.mk.injEq .. ▸ Option.some.inj hrep
      refine ⟨by rw [← hm]; positivity, hn.symm, hm.symm, ?_⟩
      have hcs : (n : ℚ) ^ 2 ≤ m := by
        rw [← hn, ← hm]
        exact sxy_sq_le _
      have hmpos : (0 : ℚ) < m := by rw [← hm]; positivity
      have hmR : (0 : ℝ) < ((m : ℚ) : ℝ) := by exact_mod_cast hmpos
      have hsq : 0 < Real.sqrt ((m : ℚ) : ℝ) := Real.sqrt_pos.2 hmR
      have habs : |((n : ℚ) : ℝ)| ≤ Real.sqrt ((m : ℚ) : ℝ) := by
        rw [← Real.sqrt_sq_eq_abs]
        apply Real.sqrt_le_sqrt
        have : ((n : ℚ) : ℝ) ^ 2 = (((n : ℚ) ^ 2 : ℚ) : ℝ) := by push_cast; ring
        rw [this]
        exact_mod_cast hcs
      rw [Set.mem_Icc, ← abs_le]
      rw [abs_div, abs_of_nonneg (Real.sqrt_nonneg _)]
      rw [div_le_one hsq]
      exact habs
  · intro hS
    have hd := diag_stats (colVals t c)
    have hps := pairList_diag t c
    constructor
    · unfold corrRep
      rw [hps] at hS ⊢
      rw [if_neg ?_]
      · rw [hd.2.2.2.2, hd.2.2.2.1]
      · rintro (h | h)
        · exact hS h
        · rw [hd.2.2.2.1] at h
          exact hS h
    · set S := sxx (pairList t c c) with hSdef
      have hSnn : 0 ≤ S := sxx_nonneg _
      have hSpos : 0 < S := lt_of_le_of_ne hSnn (Ne.symm hS)
      have hcast : (((S * S : ℚ)) : ℝ) = ((S : ℚ) : ℝ) ^ 2 := by push_cast; ring
      rw [hcast, Real.sqrt_sq (by exact_mod_cast hSnn)]
      apply div_self
      exact_mod_cast hS
  · intro hconst d2
    have h0 : sxx (pairList t c d2) = 0 := const_sxx_zero t c d2 hconst
    constructor
    · unfold corrRep
      rw [if_pos (Or.inl h0)]
    · rw [← corrRep_symm]
      unfold corrRep
      rw [if_pos (Or.inl h0)]

unseal Rat.add Rat.mul Rat.inv Rat.sub Rat.ofScientific in
/-- Witness for C9: the defined entry of the concrete correlated table lies
in the unit interval, with its rational representation as computed. -/
theorem correlation_spec_witness :
    0 < (16 : ℚ) ∧ (4 : ℚ) = sxy (pairList exCorrTable 0 1) ∧
      (16 : ℚ) = sxx (pairList exCorrTable 0 1) * syy (pairList exCorrTable 0 1) ∧
      ((4 : ℚ) : ℝ) / Real.sqrt (((16 : ℚ) : ℝ)) ∈ Set.Icc (-1 : ℝ) 1 :=
  (correlation_spec exCorrTable 0 1).2.1 4 16 (by decide)

theorem splitOnD_no_delim (d : ℕ) (f : List ℕ) (h : d ∉ f) : splitOnD d f = [f] := by
  induction f with
  | nil => rfl
  | cons c rest ih =>
    have hc : c ≠ d := fun hc => h (by rw [hc]; simp)
    have hrest : d ∉ rest := fun hr => h (by simp [hr])
    rw [show splitOnD d (c :: rest) =
      (match splitOnD d rest with
       | [] => [[c]]
       | f :: fs => if c = d then [] :: f :: fs else (c :: f) :: fs) from rfl]
    rw [ih hrest]
    simp [hc]

theorem splitOnD_append_delim (d : ℕ) (f s : List ℕ) (h : d ∉ f) :
    splitOnD d (f ++ d :: s) = f :: splitOnD d s := by
  induction f with
  | nil =>
    simp only [List.nil_append]
    cases hs : splitOnD d s with
    | nil => exact absurd hs (splitOnD_ne_nil _ _)
    | cons g gs => simp [splitOnD, hs]
  | cons c rest ih =>
    have hc : c ≠ d := fun hc => h (by rw [hc]; simp)
    have hrest : d ∉ rest := fun hr => h (by simp [hr])
    rw [List.cons_append]
    rw [show splitOnD d (c :: (rest ++ d :: s)) =
      (match splitOnD d (rest ++ d :: s) with
       | [] => [[c]]
       | f :: fs => if c = d then [] :: f :: fs else (c :: f) :: fs) from rfl]
    rw [ih hrest]
    simp [hc]

theorem splitOnD_joinD (d : ℕ) (fs : List (List ℕ)) (hne : fs ≠ [])
    (hfree : ∀ f ∈ fs, d ∉ f) : splitOnD d (joinD d fs) = fs := by
  induction fs with
  | nil => exact absurd rfl hne
  | cons f rest ih =>
    cases rest with
    | nil =>
      show splitOnD d (joinD d [f]) = [f]
      rw [show joinD d [f] = f from rfl]
      exact splitOnD_no_delim d f (hfree f (by simp))
    | cons f2 rest2 =>
      rw [show joinD d (f :: f2 :: rest2) = f ++ d :: joinD d (f2 :: rest2) from rfl]
      rw [splitOnD_append_delim d _ _ (hfree f (by simp))]
      rw [ih (by simp) (fun g hg => hfree g (by simp [hg]))]

theorem joinD_ne_nil (d : ℕ) (fs : List (List ℕ)) (h1 : fs ≠ []) (h2 : fs ≠ [[]]) :
    joinD d fs ≠ [] := by
  cases fs with
  | nil => exact absurd rfl h1
  | cons f rest =>
    cases rest with
    | nil =>
      cases hf : f with
      | nil => exact absurd (by rw [hf]) h2
      | cons c cs => simp [joinD]
    | cons f2 rest2 =>
      cases f with
      | nil => simp [joinD]
      | cons c cs => simp [joinD]

theorem joinD_row_ne_nil (d : ℕ) (r : List (List ℕ)) (c : ℕ) (f : List ℕ)
    (hget : r.get? c = some f) (hf : f ≠ []) : joinD d r ≠ [] := by
  cases r with
  | nil => simp at hget
  | cons g rest =>
    cases rest with
    | nil =>
      cases c with
      | zero =>
        simp only [List.get?_cons_zero, Option.some.injEq] at hget
        rw [show joinD d [g] = g from rfl, hget]
        exact hf
      | succ n => simp at hget
    | cons g2 rest2 =>
      cases g with
      | nil => simp [joinD]
      | cons x xs => simp [joinD]

theorem mem_joinD (d x : ℕ) (fs : List (List ℕ)) (h : x ∈ joinD d fs) :
    x = d ∨ ∃ f ∈ fs, x ∈ f := by
  induction fs with
  | nil => simp [joinD] at h
  | cons f rest ih =>
    cases rest with
    | nil =>
      right
      exact ⟨f, by simp, h⟩
    | cons f2 rest2 =>
      rw [show joinD d (f :: f2 :: rest2) = f ++ d :: joinD d (f2 :: rest2) from rfl] at h
      rw [List.mem_append] at h
      rcases h with h | h
      · exact Or.inr ⟨f, by simp, h⟩
      · rw [List.mem_cons] at h
        rcases h with rfl | h
        · exact Or.inl rfl
        · rcases ih h with h2 | ⟨g, hg, hx⟩
          · exact Or.inl h2
          · exact Or.inr ⟨g, by simp [List.mem_cons.1 hg], hx⟩

theorem splitOnD_flatten_lines (d : ℕ) (lines : List (List ℕ))
    (hfree : ∀ l ∈ lines, d ∉ l) :
    splitOnD d ((lines.map (fun l => l ++ [d])).flatten) = lines ++ [[]] := by
  induction lines with
  | nil => rfl
  | cons l rest ih =>
    simp only [List.map_cons, List.flatten_cons, List.append_assoc, List.cons_append,
      List.nil_append]
    rw [splitOnD_append_delim d _ _ (hfree l (by simp))]
    rw [ih (fun g hg => hfree g (by simp [hg]))]

theorem goodField_props (f : List ℕ) (h : goodField f = true) :
    ∀ ch ∈ f, validCh ch = true ∧ ch ≠ nlCh ∧ ch ≠ commaCh := by
  intro ch hch
  unfold goodField at h
  rw [List.all_eq_true] at h
  have h2 := h ch hch
  simp only [Bool.and_eq_true, Bool.not_eq_true', decide_eq_false_iff_not] at h2
  exact ⟨h2.1.1, h2.1.2, h2.2⟩

theorem goodTable_props (t : Table) (hgood : goodTable t = true) :
    (∀ f ∈ t.header, goodField f = true) ∧
    (∀ r ∈ t.rows, (∀ f ∈ r, goodField f = true) ∧ r.length = t.header.length) ∧
    t.header ≠ [] ∧ t.header ≠ [[]] := by
  unfold goodTable at hgood
  simp only [Bool.and_eq_true] at hgood
  obtain ⟨⟨⟨hA, hB⟩, hC⟩, hD⟩ := hgood
  rw [List.all_eq_true] at hA
  rw [List.all_eq_true] at hB
  refine ⟨hA, ?_, ?_, by simpa using hD⟩
  · intro r hr
    have h2 := hB r hr
    simp only [Bool.and_eq_true, decide_eq_true_eq] at h2
    exact ⟨by rw [← List.all_eq_true]; exact h2.1, h2.2⟩
  · intro h
    rw [h] at hC
    simp at hC

theorem joinD_comma_nl_free (fs : List (List ℕ)) (hf : ∀ f ∈ fs, goodField f = true) :
    nlCh ∉ joinD commaCh fs := by
  intro hmem
  rcases mem_joinD commaCh nlCh fs hmem with h | ⟨f, hfm, hx⟩
  · simp [nlCh, commaCh] at h
  · exact ((goodField_props f (hf f hfm)) nlCh hx).2.1 rfl

theorem joinD_comma_free (fs : List (List ℕ)) (hf : ∀ f ∈ fs, goodField f = true) :
    ∀ f ∈ fs, commaCh ∉ f := by
  intro f hfm hx
  exact ((goodField_props f (hf f hfm)) commaCh hx).2.2 rfl

theorem parseCSV_toCsvText (t : Table) (hgood : goodTable t = true)
    (hrows : ∀ r ∈ t.rows, joinD commaCh r ≠ []) :
    parseCSV (toCsvText t) = some t := by
  obtain ⟨hhead, hrowp, hne1, hne2⟩ := goodTable_props t hgood
  have hheadline_ne : joinD commaCh t.header ≠ [] := joinD_ne_nil _ _ hne1 hne2
  have hhead_nl : nlCh ∉ joinD commaCh t.header := joinD_comma_nl_free _ hhead
  have hlines_nl : ∀ l ∈ t.rows.map (fun r => joinD commaCh r), nlCh ∉ l := by
    intro l hl
    rw [List.mem_map] at hl
    obtain ⟨r, hr, rfl⟩ := hl
    exact joinD_comma_nl_free r (hrowp r hr).1
  have hsplit : splitOnD nlCh (toCsvText t) =
      joinD commaCh t.header :: ((t.rows.map (fun r => joinD commaCh r)) ++ [[]]) := by
    unfold toCsvText
    rw [splitOnD_append_delim nlCh _ _ hhead_nl]
    rw [show t.rows.map (fun r => joinD commaCh r ++ [nlCh]) =
        (t.rows.map (fun r => joinD commaCh r)).map (fun l => l ++ [nlCh]) from by
      rw [List.map_map]
      rfl]
    rw [splitOnD_flatten_lines nlCh _ hlines_nl]
  have hfilter : (splitOnD nlCh (toCsvText t)).filter (fun l => !l.isEmpty) =
      joinD commaCh t.header :: t.rows.map (fun r => joinD commaCh r) := by
    rw [hsplit]
    rw [List.filter_cons_of_pos (by simpa using hheadline_ne)]
    rw [List.filter_append]
    rw [List.filter_eq_self.2 ?hall]
    case hall =>
      intro a ha
      have : a ≠ [] := by
        rw [List.mem_map] at ha
        obtain ⟨r, hr, rfl⟩ := ha
        exact hrows r hr
      simpa using this
    simp
  unfold parseCSV
  rw [hfilter]
  have hheadsplit : splitOnD commaCh (joinD commaCh t.header) = t.header :=
    splitOnD_joinD commaCh t.header hne1 (joinD_comma_free _ hhead)
  have hrowsplit : (t.rows.map (fun r => joinD commaCh r)).map
      (fun r => splitOnD commaCh r) = t.rows := by
    rw [List.map_map]
    have : ∀ r ∈ t.rows, ((fun r => splitOnD commaCh r) ∘ fun r => joinD commaCh r) r = r := by
      intro r hr
      have hrne : r ≠ [] := by
        intro h0
        have hlen := (hrowp r hr).2
        rw [h0] at hlen
        simp only [List.length_nil] at hlen
        exact hne1 (List.length_eq_zero.1 hlen.symm)
      exact splitOnD_joinD commaCh r hrne (joinD_comma_free _ (hrowp r hr).1)
    rw [List.map_congr_left this]
    exact List.map_id' t.rows
  simp only [hheadsplit, hrowsplit]
  have hguard : t.rows.all (fun r => decide (r.length ≤ t.header.length)) = true := by
    rw [List.all_eq_true]
    intro r hr
    simp only [decide_eq_true_eq]
    exact le_of_eq (hrowp r hr).2
  rw [if_pos hguard]
  have hpad : t.rows.map
      (fun r => r ++ List.replicate (t.header.length - r.length) ([] : List ℕ)) = t.rows := by
    have hid : ∀ r ∈ t.rows,
        r ++ List.replicate (t.header.length - r.length) ([] : List ℕ) = r := by
      intro r hr
      rw [← (hrowp r hr).2, Nat.sub_self, List.replicate_zero, List.append_nil]
    rw [List.map_congr_left hid]
    exact List.map_id' t.rows
  rw [hpad]

theorem utf8Decode_encode (cs : List ℕ) (h : ∀ c ∈ cs, validCh c = true) :
    utf8Decode (utf8Encode cs) = some cs := by
  induction cs with
  | nil => simp [utf8Encode, utf8Decode]
  | cons c rest ih =>
    have hval : c < 1114112 ∧ (c < 55296 ∨ 57343 < c) := by
      have hc := h c (by simp)
      simpa [validCh, Bool.and_eq_true, Bool.not_eq_true', decide_eq_true_eq] using hc
    have hrec := ih (fun x hx => h x (by simp [hx]))
    by_cases h1 : c < 128
    · have henc : utf8Encode (c :: rest) = c :: utf8Encode rest := by
        simp only [utf8Encode]
        rw [if_pos h1]
        rfl
      have hclass : utf8Class c (utf8Encode rest) = some (c, 0) := by
        unfold utf8Class
        rw [if_pos h1]
      rw [henc]
      simp only [utf8Decode, hclass, List.drop_zero, hrec, Option.map_some']
    · by_cases h2 : c < 2048
      · have henc : utf8Encode (c :: rest) =
            (192 + c / 64) :: (128 + c % 64) :: utf8Encode rest := by
          simp only [utf8Encode]
          rw [if_neg h1, if_pos h2]
          rfl
        have hclass : utf8Class (192 + c / 64) ((128 + c % 64) :: utf8Encode rest) =
            some (c, 1) := by
          unfold utf8Class
          rw [if_neg (by omega), if_pos (show (decide (194 ≤ 192 + c / 64) &&
            decide (192 + c / 64 ≤ 223)) = true by
              simp only [Bool.and_eq_true, decide_eq_true_eq]
              omega)]
          show (if isCont (128 + c % 64) = true then
            some ((192 + c / 64 - 192) * 64 + (128 + c % 64 - 128), 1) else none) = some (c, 1)
          rw [if_pos (show isCont (128 + c % 64) = true by
            simp only [isCont, Bool.and_eq_true, decide_eq_true_eq]
            omega)]
          have : (192 + c / 64 - 192) * 64 + (128 + c % 64 - 128) = c := by omega
          rw [this]
        rw [henc]
        simp only [utf8Decode, hclass, List.drop_succ_cons, List.drop_zero, hrec,
          Option.map_some']
      · by_cases h3 : c < 65536
        · have henc : utf8Encode (c :: rest) =
              (224 + c / 4096) :: (128 + c / 64 % 64) :: (128 + c % 64) :: utf8Encode rest := by
            simp only [utf8Encode]
            rw [if_neg h1, if_neg h2, if_pos h3]
            rfl
          have hclass : utf8Class (224 + c / 4096)
              ((128 + c / 64 % 64) :: (128 + c % 64) :: utf8Encode rest) = some (c, 2) := by
            unfold utf8Class
            rw [if_neg (by omega),
              if_neg (show ¬((decide (194 ≤ 224 + c / 4096) &&
                decide (224 + c / 4096 ≤ 223)) = true) by
                  simp only [Bool.and_eq_true, decide_eq_true_eq]
                  omega),
              if_pos (show (decide (224 ≤ 224 + c / 4096) &&
                decide (224 + c / 4096 ≤ 239)) = true by
                  simp only [Bool.and_eq_true, decide_eq_true_eq]
                  omega)]
            show (if (isCont (128 + c / 64 % 64) && isCont (128 + c % 64) &&
                !(decide (224 + c / 4096 = 224) && decide (128 + c / 64 % 64 < 160)) &&
                !(decide (224 + c / 4096 = 237) && decide (160 ≤ 128 + c / 64 % 64))) = true then
              some ((224 + c / 4096 - 224) * 4096 + (128 + c / 64 % 64 - 128) * 64 +
                (128 + c % 64 - 128), 2) else none) = some (c, 2)
            rw [if_pos ?guard]
            case guard =>
              simp only [isCont, Bool.and_eq_true, decide_eq_true_eq, Bool.not_eq_true',
                Bool.and_eq_false_iff, decide_eq_false_iff_not, Nat.not_lt, Nat.not_le]
              omega
            have : (224 + c / 4096 - 224) * 4096 + (128 + c / 64 % 64 - 128) * 64 +
                (128 + c % 64 - 128) = c := by omega
            rw [this]
          rw [henc]
          simp only [utf8Decode, hclass, List.drop_succ_cons, List.drop_zero, hrec,
            Option.map_some']
        · have h4 : c < 1114112 := hval.1
          have henc : utf8Encode (c :: rest) =
              (240 + c / 262144) :: (128 + c / 4096 % 64) :: (128 + c / 64 % 64) ::
                (128 + c % 64) :: utf8Encode rest := by
            simp only [utf8Encode]
            rw [if_neg h1, if_neg h2, if_neg h3]
            rfl
          have hclass : utf8Class (240 + c / 262144)
              ((128 + c / 4096 % 64) :: (128 + c / 64 % 64) :: (128 + c % 64) ::
                utf8Encode rest) = some (c, 3) := by
            unfold utf8Class
            rw [if_neg (by omega),
              if_neg (show ¬((decide (194 ≤ 240 + c / 262144) &&
                decide (240 + c / 262144 ≤ 223)) = true) by
                  simp only [Bool.and_eq_true, decide_eq_true_eq]
                  omega),
              if_neg (show ¬((decide (224 ≤ 240 + c / 262144) &&
                decide (240 + c / 262144 ≤ 239)) = true) by
                  simp only [Bool.and_eq_true, decide_eq_true_eq]
                  omega),
              if_pos (show (decide (240 ≤ 240 + c / 262144) &&
                decide (240 + c / 262144 ≤ 244)) = true by
                  simp only [Bool.and_eq_true, decide_eq_true_eq]
                  omega)]
            show (if (isCont (128 + c / 4096 % 64) && isCont (128 + c / 64 % 64) &&
                isCont (128 + c % 64) &&
                !(decide (240 + c / 262144 = 240) && decide (128 + c / 4096 % 64 < 144)) &&
                !(decide (240 + c / 262144 = 244) && decide (144 ≤ 128 + c / 4096 % 64))) =
                  true then
              some ((240 + c / 262144 - 240) * 262144 + (128 + c / 4096 % 64 - 128) * 4096 +
                (128 + c / 64 % 64 - 128) * 64 + (128 + c % 64 - 128), 3) else none) =
              some (c, 3)
            rw [if_pos ?guard4]
            case guard4 =>
              simp only [isCont, Bool.and_eq_true, decide_eq_true_eq, Bool.not_eq_true',
                Bool.and_eq_false_iff, decide_eq_false_iff_not, Nat.not_lt, Nat.not_le]
              omega
            have : (240 + c / 262144 - 240) * 262144 + (128 + c / 4096 % 64 - 128) * 4096 +
                (128 + c / 64 % 64 - 128) * 64 + (128 + c % 64 - 128) = c := by omega
            rw [this]
          rw [henc]
          simp only [utf8Decode, hclass, List.drop_succ_cons, List.drop_zero, hrec,
            Option.map_some']

theorem selectRows_mem (t : Table) (m : ℕ → Bool) (r : List (List ℕ))
    (hr : r ∈ (selectRows t m).rows) : ∃ i, t.rows.get? i = some r ∧ m i = true := by
  unfold selectRows at hr
  simp only [List.mem_map, List.mem_filter] at hr
  obtain ⟨⟨i, r2⟩, ⟨hmem, hm⟩, rfl⟩ := hr
  rw [List.mk_mem_enum_iff_get?] at hmem
  exact ⟨i, hmem, hm⟩

theorem parseNum_nil : parseNum [] = none := by decide

theorem selectRows_goodTable (t : Table) (m : ℕ → Bool) (hgood : goodTable t = true) :
    goodTable (selectRows t m) = true := by
  unfold goodTable at hgood ⊢
  simp only [Bool.and_eq_true] at hgood ⊢
  obtain ⟨⟨⟨hA, hB⟩, hC⟩, hD⟩ := hgood
  refine ⟨⟨⟨hA, ?_⟩, hC⟩, hD⟩
  rw [List.all_eq_true] at hB ⊢
  intro r hr
  obtain ⟨i, hget, _⟩ := selectRows_mem t m r hr
  exact hB r (List.get?_mem hget)

theorem maskRow_row_line_ne (t : Table) (r : List (List ℕ))
    (hr : r ∈ (selectRows t (maskRow t (numericCols t))).rows) :
    joinD commaCh r ≠ [] := by
  obtain ⟨i, hget, hm⟩ := selectRows_mem t (maskRow t (numericCols t)) r hr
  unfold maskRow at hm
  rw [List.any_eq_true] at hm
  obtain ⟨c, _, hx⟩ := hm
  unfold exceeds at hx
  cases hz : zSq t i c with
  | none => rw [hz] at hx; exact Bool.noConfusion hx
  | some q =>
    obtain ⟨x, v, hcell, _, _, _⟩ := (zSq_eq_some_iff t i c q).1 hz
    unfold cellQ cellStr at hcell
    rw [hget] at hcell
    simp only [Option.some_bind, Option.bind_eq_some] at hcell
    obtain ⟨f, hgetf, hpf⟩ := hcell
    have hfne : f ≠ [] := by
      intro h0
      rw [h0, parseNum_nil] at hpf
      exact Option.noConfusion hpf
    exact joinD_row_ne_nil commaCh r c f hgetf hfne

theorem goodTable_valid_text (t : Table) (hgood : goodTable t = true) :
    ∀ ch ∈ toCsvText t, validCh ch = true := by
  obtain ⟨hhead, hrowp, _, _⟩ := goodTable_props t hgood
  have hnl : validCh nlCh = true := by decide
  have hcomma : validCh commaCh = true := by decide
  intro ch hch
  unfold toCsvText at hch
  rw [List.mem_append] at hch
  rcases hch with hch | hch
  · rcases mem_joinD commaCh ch t.header hch with rfl | ⟨f, hf, hx⟩
    · exact hcomma
    · exact ((goodField_props f (hhead f hf)) ch hx).1
  · rw [List.mem_cons] at hch
    rcases hch with rfl | hch
    · exact hnl
    · rw [List.mem_flatten] at hch
      obtain ⟨l, hl, hx⟩ := hch
      rw [List.mem_map] at hl
      obtain ⟨r, hrr, rfl⟩ := hl
      rw [List.mem_append] at hx
      rcases hx with hx | hx
      · rcases mem_joinD commaCh ch r hx with rfl | ⟨f, hf, hx2⟩
        · exact hcomma
        · exact ((goodField_props f ((hrowp r hrr).1 f hf)) ch hx2).1
      · rw [List.mem_singleton] at hx
        rw [hx]
        exact hnl

theorem load_of_utf8 (blob text : List ℕ) (tbl : Table)
    (hdec : utf8Decode blob = some text) (hp : parseCSV text = some tbl) :
    load blob = some tbl := by
  have h1 : decodeParse utf8Decode blob = some tbl := by
    unfold decodeParse
    rw [hdec]
    exact hp
  rw [load_unfold, h1]

theorem selectRows_congr (t : Table) (m1 m2 : ℕ → Bool) (hm : ∀ i, m1 i = m2 i) :
    selectRows t m1 = selectRows t m2 := by
  unfold selectRows
  have : ∀ pr ∈ t.rows.enum, m1 pr.1 = m2 pr.1 := fun pr _ => hm pr.1
  rw [List.filter_congr this]

/-- C8: exporting the mask-selected rows to CSV (UTF-8, header row, no index
column) and re-loading the bytes through load recovers the selected subset
exactly, header and rows; and the export is deterministic: masks that agree
pointwise on row positions produce identical bytes. -/
theorem export_roundtrip (t : Table) (hgood : goodTable t = true) :
    load (exportCsv t (maskRow t (numericCols t))) =
      some (selectRows t (maskRow t (numericCols t))) ∧
    (∀ m2, (∀ i, maskRow t (numericCols t) i = m2 i) →
      exportCsv t (maskRow t (numericCols t)) = exportCsv t m2) := by
  constructor
  · set sel := selectRows t (maskRow t (numericCols t)) with hsel
    have hgood2 : goodTable sel = true := selectRows_goodTable t _ hgood
    have hlines : ∀ r ∈ sel.rows, joinD commaCh r ≠ [] := fun r hr =>
      maskRow_row_line_ne t r hr
    have hparse : parseCSV (toCsvText sel) = some sel :=
      parseCSV_toCsvText sel hgood2 hlines
    have hvalid : ∀ ch ∈ toCsvText sel, validCh ch = true := goodTable_valid_text sel hgood2
    have hdec : utf8Decode (utf8Encode (toCsvText sel)) = some (toCsvText sel) :=
      utf8Decode_encode _ hvalid
    unfold exportCsv
    exact load_of_utf8 _ _ _ hdec hparse
  · intro m2 hm
    unfold exportCsv
    rw [selectRows_congr t _ m2 hm]

unseal Rat.add Rat.mul Rat.inv Rat.sub Rat.ofScientific in
/-- Witness for C8 on the concrete twelve-row table: the export of the
flagged rows reloads to exactly the flagged subset. -/
theorem export_roundtrip_witness :
    load (exportCsv exOutlierTable (maskRow exOutlierTable (numericCols exOutlierTable))) =
      some (selectRows exOutlierTable (maskRow exOutlierTable (numericCols exOutlierTable))) :=
  (export_roundtrip exOutlierTable (by decide)).1

unseal utf8Decode cp949Decode in
/-- C7 (code bug): under the program's actual stream behaviour the decode
error is raised exactly when the utf-8 attempt fails, not — as claimed —
when no listed encoding can parse the input, because the unrewound stream
leaves the fallback attempts nothing to read: a blob that a listed encoding
(cp949) parses into a well-formed table still stops the pipeline with the
decode error.  The quantified iff records the program's actual decode-error
condition; the concrete instance exhibits the divergence from the claim. -/
theorem pipelineStream_decode_error_divergence :
    (∀ p sdQ edQ blob, pipelineStream p sdQ edQ blob = Except.error PipeError.decodeError ↔
      decodeParse utf8Decode blob = none) ∧
    pipelineStream exParse none none [99, 10, 176, 98, 10] =
      Except.error PipeError.decodeError ∧
    decodeParse cp949Decode [99, 10, 176, 98, 10] = some ⟨[[99]], [[[110690]]]⟩ := by
  refine ⟨?_, by with_unfolding_all rfl, by decide⟩
  intro p sdQ edQ blob
  rw [← loadStream_eq_first blob]
  cases hld : loadStream blob with
  | none => simp [pipelineStream, hld]
  | some t0 =>
    simp only [pipelineStream, hld]
    by_cases he : t0.rows.isEmpty
    · simp [he]
    · by_cases hn : (numericCols t0).isEmpty
      · simp [he, hn]
      · by_cases ht : hasTimestamp t0 <;> simp [he, hn, ht]

theorem normalize_header (p : List ℕ → Option ℤ) (t : Table) :
    (normalize p t).header = t.header := by
  unfold normalize
  split <;> rfl

theorem normalize_rows_sub (p : List ℕ → Option ℤ) (t : Table) :
    ∀ row ∈ (normalize p t).rows, row ∈ t.rows := by
  intro row hrow
  unfold normalize at hrow
  split at hrow
  · simp only at hrow
    have hmem := (List.mergeSort_perm
      (t.rows.filter (fun row => (rowTs p t row).isSome)) _).mem_iff.1 hrow
    exact (List.mem_filter.1 hmem).1
  · exact hrow

/-- C10: the analyzed numeric-column set is the one computed on the loaded
table, before timestamp normalization and date filtering; those steps keep
the header and only drop or reorder rows; and a column named timestamp whose
raw values are numeric is in the numeric set and stays in the analyzed
set. -/
theorem indexOf_lt_length_of_mem (a : List ℕ) (l : List (List ℕ)) (h : a ∈ l) :
    l.indexOf a < l.length := by
  induction l with
  | nil => simp at h
  | cons x xs ih =>
    rw [List.indexOf_cons]
    by_cases hx : (x == a) = true
    · simp [hx]
    · have hx2 : (x == a) = false := by simpa using hx
      simp only [hx2, cond_false, List.length_cons]
      rw [List.mem_cons] at h
      rcases h with rfl | h2
      · simp at hx
      · exact Nat.succ_lt_succ (ih h2)

theorem numeric_cols_fixed_at_load (p : List ℕ → Option ℤ) (sdQ edQ : Option ℤ)
    (blob : List ℕ) (a : Analysis) (h : pipeline p sdQ edQ blob = .ok a) :
    ∃ t0, load blob = some t0 ∧
      a.ncols = numericCols t0 ∧
      a.table.header = t0.header ∧
      (∀ row ∈ a.table.rows, row ∈ t0.rows) ∧
      (hasTimestamp t0 = true → isNumericCol t0 (tsIdx t0) = true →
        tsIdx t0 ∈ numericCols t0 ∧ tsIdx t0 ∈ a.ncols) := by
  cases hld : load blob with
  | none =>
    unfold pipeline at h
    rw [hld] at h
    exact Except.noConfusion h
  | some t0 =>
    refine ⟨t0, rfl, ?_⟩
    simp only [pipeline, hld] at h
    have htsmem : hasTimestamp t0 = true → isNumericCol t0 (tsIdx t0) = true →
        tsIdx t0 ∈ numericCols t0 := by
      intro hts hnum
      unfold numericCols
      rw [List.mem_filter]
      refine ⟨?_, hnum⟩
      rw [List.mem_range]
      have hmem : tsName ∈ t0.header := by simpa [hasTimestamp] using hts
      exact indexOf_lt_length_of_mem tsName t0.header hmem
    by_cases he : t0.rows.isEmpty = true
    · rw [if_pos he] at h
      exact Except.noConfusion h
    · rw [if_neg he] at h
      by_cases hn : (numericCols t0).isEmpty = true
      · rw [if_pos hn] at h
        exact Except.noConfusion h
      · rw [if_neg hn] at h
        by_cases ht2 : hasTimestamp t0 = true
        · rw [if_pos ht2] at h
          obtain rfl := Except.ok.inj h
          refine ⟨rfl, normalize_header p t0, ?_, ?_⟩
          · intro row hrow
            unfold filterByDate at hrow
            simp only [List.mem_filter] at hrow
            exact normalize_rows_sub p t0 row hrow.1
          · intro hts hnum
            exact ⟨htsmem hts hnum, htsmem hts hnum⟩
        · rw [if_neg ht2] at h
          obtain rfl := Except.ok.inj h
          exact ⟨rfl, rfl, fun row hrow => hrow,
            fun hts hnum => ⟨htsmem hts hnum, htsmem hts hnum⟩⟩

unseal Rat.add Rat.mul Rat.inv Rat.sub Rat.ofScientific utf8Decode cp949Decode in
/-- Witness for C10: the concrete blob with a numeric timestamp column is
analyzed with the timestamp column inside the numeric set. -/
theorem numeric_cols_fixed_at_load_witness :
    ∃ t0, load exTsBlob = some t0 ∧
      (Analysis.mk ⟨[tsName, [97]], []⟩ [0, 1]).ncols = numericCols t0 ∧
      (Analysis.mk ⟨[tsName, [97]], []⟩ [0, 1]).table.header = t0.header ∧
      (∀ row ∈ (Analysis.mk ⟨[tsName, [97]], []⟩ [0, 1]).table.rows, row ∈ t0.rows) ∧
      (hasTimestamp t0 = true → isNumericCol t0 (tsIdx t0) = true →
        tsIdx t0 ∈ numericCols t0 ∧
          tsIdx t0 ∈ (Analysis.mk ⟨[tsName, [97]], []⟩ [0, 1]).ncols) :=
  numeric_cols_fixed_at_load exParse none none exTsBlob
    ⟨⟨[tsName, [97]], []⟩, [0, 1]⟩ (by with_unfolding_all rfl)

end SensorApp
